import Mathlib

/-!
Verification of the Conway's Game of Life repository.

The development shallowly embeds the repository's Rust sources:

* `src/game/board.rs` — the grid (`Board`), its cell enumeration, index
  validation, mutation and iteration (`BoardIter`);
* `src/game/logic.rs` — the transition engine (`next_state`), toroidal
  neighbour counting (`count_live_neighbours`, `valid_neighbour_index`)
  and the resize operator (`resize`);
* `apps/tui/src/tui.rs` — the control-loop state handled per input event
  (pause state machine, frame-duration speed control, mouse toggling).

The repository contains two variants of the cell enumeration.  The file
`board.rs` present in the tree declares the four-state
`Cell {Died, Dead, Born, Alive}` used by the TUI app, while `logic.rs`
(and `game/tui.rs`) are written against a two-state `Cell {Dead, Live}`
plus a `CellLifecycle {Born, Died}` side log whose declaring file is not
in the tree; that enumeration is modelled from the spec below.  The grid
structure itself (a dense vector indexed by `y * width + x`) is shared by
both variants, so it is embedded once, generically in the cell type.

Machine integers: all the Rust `usize`/`u8` arithmetic involved stays far
below any overflow boundary (coordinates bounded by grid dimensions,
neighbour counts bounded by 8), so `Nat` is used directly; the single
place where signed arithmetic matters (`rem_euclid` on `isize` in
`valid_neighbour_index`) is embedded with `Int.emod`, which agrees with
Rust's `rem_euclid` for positive moduli.  Fallible operations (Rust
panics) are embedded with `Option`.
-/

namespace GameOfLife

/-- Embedding of `struct Board` from `board.rs`: a dense vector of cells
(`inner: Vec<Cell>`) together with `width` and `height`; the cell at
`(x, y)` lives at linear index `y * width + x`.  Generic in the cell type
because the repository has two cell enumerations sharing this layout. -/
structure Board (α : Type) where
  inner : List α
  width : Nat
  height : Nat
deriving DecidableEq

/-- Well-formedness maintained by all the Rust constructors and mutators:
the backing vector has exactly `width * height` entries. -/
def Board.WF {α : Type} (b : Board α) : Prop :=
  b.inner.length = b.width * b.height

instance {α : Type} (b : Board α) : Decidable b.WF := by
  unfold Board.WF; infer_instance

/-- Embedding of `Board::check_index`: `x < self.width() && y < self.height()`. -/
def Board.check_index {α : Type} (b : Board α) (p : Nat × Nat) : Bool :=
  decide (p.1 < b.width) && decide (p.2 < b.height)

/-- Embedding of `Board::new`: panics (`none`) when either dimension is 0,
otherwise a grid whose vector is `vec![Cell::Dead; width * height]`; the
`Inhabited` default of each cell enumeration is its `Dead` state. -/
def Board.new (α : Type) [Inhabited α] (width height : Nat) : Option (Board α) :=
  if width = 0 ∨ height = 0 then none
  else some { inner := List.replicate (width * height) default, width := width, height := height }

/-- Embedding of `Index<(usize, usize)> for Board`: read of
`inner[y * width + x]`.  The Rust accessor asserts the bounds; reads in
the embedded algorithms only occur at indices that are in bounds for
well-formed boards, where `getD` returns the stored cell. -/
def Board.get {α : Type} [Inhabited α] (b : Board α) (p : Nat × Nat) : α :=
  (b.inner[p.2 * b.width + p.1]?).getD default

/-- Embedding of the write through `IndexMut<(usize, usize)> for Board`:
`inner[y * width + x] = c`. -/
def Board.set {α : Type} (b : Board α) (p : Nat × Nat) (c : α) : Board α :=
  { b with inner := b.inner.set (p.2 * b.width + p.1) c }

/-- Embedding of `struct Entry` from `board.rs`: a cell paired with its
position, as yielded by `BoardIter`. -/
structure Entry (α : Type) where
  cell : α
  index : Nat × Nat
deriving DecidableEq

/-- Embedding of `Entry::x`. -/
def Entry.x {α : Type} (e : Entry α) : Nat := e.index.1

/-- Embedding of `Entry::y`. -/
def Entry.y {α : Type} (e : Entry α) : Nat := e.index.2

/-- Embedding of `BoardIter::increment_index`: increment `y`; on overflow
move to the next column (`x + 1`, `y = 0`); yield `none` once
`x >= width || y >= height`. -/
def incrementIndex (w h : Nat) (p : Nat × Nat) : Option (Nat × Nat) :=
  let x := p.1
  let y := p.2 + 1
  let xy := if h ≤ y then (x + 1, 0) else (x, y)
  if w ≤ xy.1 ∨ h ≤ xy.2 then none else some xy

/-- Fuelled unfolding of `Iterator::next` for `BoardIter`: at the current
index, yield the entry for that position and advance with
`increment_index`; stop at `none`.  The fuel bounds the number of `next`
calls; `width * height` suffices (see `Board.iter_eq_indices`). -/
def iterFuel {α : Type} [Inhabited α] (b : Board α) : Nat → Option (Nat × Nat) → List (Entry α)
  | 0, _ => []
  | _ + 1, none => []
  | fuel + 1, some p => Entry.mk (b.get p) p :: iterFuel b fuel (incrementIndex b.width b.height p)

/-- Embedding of `Board::iter` / `BoardIter::new`: the traversal starting
at index `(0, 0)`, run to exhaustion (`width * height` steps suffice). -/
def Board.iter {α : Type} [Inhabited α] (b : Board α) : List (Entry α) :=
  iterFuel b (b.width * b.height) (some (0, 0))

/-- The positions of one column, in the `y`-increasing order `BoardIter`
visits them. -/
def colIndices (x h : Nat) : List (Nat × Nat) :=
  (List.range h).map (fun y => (x, y))

/-- All positions of a `w × h` grid in `BoardIter` order: column by
column, rows inside a column. -/
def iterIndices (w h : Nat) : List (Nat × Nat) :=
  (List.range w).flatMap (fun x => colIndices x h)

/-- The positions `BoardIter` still has to visit when its current index
is `(x, y)`: the rest of column `x`, then all later columns. -/
def suffixIndices (w h x y : Nat) : List (Nat × Nat) :=
  ((List.range h).drop y).map (fun j => (x, j)) ++
    ((List.range w).drop (x + 1)).flatMap (fun i => colIndices i h)

namespace GameBoard

/-- Embedding of `enum Cell` as declared in the `board.rs` present in the
tree: the four-state variant with one-frame `Died`/`Born` emphasis. -/
inductive Cell : Type
  | Died
  | Dead
  | Born
  | Alive
deriving DecidableEq

instance : Inhabited Cell := ⟨Cell.Dead⟩

/-- Embedding of `Cell::is_alive`. -/
def Cell.is_alive : Cell → Bool
  | Cell.Died => false
  | Cell.Dead => false
  | Cell.Born => true
  | Cell.Alive => true

/-- Embedding of `Cell::flip`: an alive cell becomes `Died`, a dead cell
becomes `Born`. -/
def Cell.flip (c : Cell) : Cell :=
  if c.is_alive then Cell.Died else Cell.Born

/-- Embedding of `From<Cell> for char` (the same markers `Display` uses). -/
def Cell.toChar : Cell → Char
  | Cell.Died => 'x'
  | Cell.Dead => 'X'
  | Cell.Born => 'o'
  | Cell.Alive => 'O'

/-- One live/dead marker character per cell, concatenated in iteration
order, as in the repository's `iterator` test (which folds
`entry.cell().to_string()` over `board.iter()`). -/
def iterString (b : Board Cell) : String :=
  String.mk (b.iter.map (fun e => e.cell.toChar))

/-- Embedding of the `BoardEvent::MouseClick { x, y }` arm of `main_loop`
in `apps/tui/src/tui.rs`:
`if board.check_index((x, y)) { board.index_mut((x, y)).flip(); }`.
The mutating accessor `index_mut` asserts its bounds; a firing assertion
(a panic) is embedded as `none`. -/
def flipAt (b : Board Cell) (p : Nat × Nat) : Option (Board Cell) :=
  if p.1 < b.width ∧ p.2 < b.height then some (b.set p (b.get p).flip) else none

def mouseClick (b : Board Cell) (x y : Nat) : Option (Board Cell) :=
  if b.check_index (x, y) then flipAt b (x, y) else some b

end GameBoard

namespace GameLogic

/-- Modelled from the spec: the two-state cell enumeration (`Dead`,
`Live`) that `logic.rs` and `game/tui.rs` are written against; the
revision of `board.rs` declaring it is not in the tree.  Per the spec the
base model is a closed enumeration over the two semantic states. -/
inductive Cell : Type
  | Dead
  | Live
deriving DecidableEq

instance : Inhabited Cell := ⟨Cell.Dead⟩

/-- Modelled from the spec: `Cell::flip` for the two-state enumeration —
toggling the alive/dead state (the spec's side-channel reframing treats
`Born`/`Died` emphasis as the separate lifecycle log, so the cell itself
just toggles). -/
def Cell.flip : Cell → Cell
  | Cell.Dead => Cell.Live
  | Cell.Live => Cell.Dead

/-- Modelled from the spec: `enum CellLifecycle` — the per-position
last-transition marker (`Born` on birth, `Died` on death) recorded by
`next_state` into `life_log`; its declaring file is not in the tree. -/
inductive CellLifecycle : Type
  | Born
  | Died
deriving DecidableEq

/-- The `life_log: HashMap<(usize, usize), CellLifecycle>` of `next_state`,
embedded by its lookup function; `HashMap::insert` becomes a pointwise
update. -/
def LifeLog : Type := (Nat × Nat) → Option CellLifecycle

/-- Embedding of `HashMap::insert`: the entry at `k` becomes `v`, every
other entry is untouched. -/
def LifeLog.insert (log : LifeLog) (k : Nat × Nat) (v : CellLifecycle) : LifeLog :=
  fun q => if q = k then some v else log q

def LifeLog.empty : LifeLog := fun _ => none

/-- Embedding of the inclusive `isize` range `(a)..=(b)` that
`count_live_neighbours` loops over. -/
def intRangeIncl (a b : Int) : List Int :=
  (List.range (b - a + 1).toNat).map (fun i => a + i)

/-- Embedding of `valid_neighbour_index` from `logic.rs`: `none` for the
centre offset itself, otherwise each coordinate wrapped with
`rem_euclid` by the corresponding dimension. -/
def validNeighbourIndex (board : Board Cell) (p : Nat × Nat) (x y : Int) :
    Option (Nat × Nat) :=
  if x = (p.1 : Int) ∧ y = (p.2 : Int) then none
  else some ((x.emod (board.width : Int)).toNat, (y.emod (board.height : Int)).toNat)

/-- Embedding of `count_live_neighbours` from `logic.rs`: loop over the
3×3 offset square around `(ux, uy)`, and for every offset whose
`valid_neighbour_index` is `Some` of a live cell, increment the count. -/
def countLiveNeighbours (board : Board Cell) (p : Nat × Nat) : Nat :=
  (intRangeIncl ((p.1 : Int) - 1) ((p.1 : Int) + 1)).foldl (fun acc x =>
    (intRangeIncl ((p.2 : Int) - 1) ((p.2 : Int) + 1)).foldl (fun acc y =>
      match validNeighbourIndex board p x y with
      | some idx => if board.get idx = Cell.Live then acc + 1 else acc
      | none => acc) acc) 0

/-- The body of the `for entry in snapshot.iter()` loop of `next_state`:
compute the new cell from the snapshot cell and the snapshot's
live-neighbour count (logging `Born`/`Died` into the life log on a state
change), and write it into the live board at the entry's position. -/
def nextStateStep (snapshot : Board Cell) (acc : Board Cell × LifeLog) (entry : Entry Cell) :
    Board Cell × LifeLog :=
  let cell := entry.cell
  let liveNeighbours := countLiveNeighbours snapshot entry.index
  let cellLog : Cell × LifeLog :=
    match cell with
    | Cell.Dead =>
      if liveNeighbours = 3 then (Cell.Live, acc.2.insert entry.index CellLifecycle.Born)
      else (cell, acc.2)
    | Cell.Live =>
      if liveNeighbours < 2 then (Cell.Dead, acc.2.insert entry.index CellLifecycle.Died)
      else if liveNeighbours > 3 then (Cell.Dead, acc.2.insert entry.index CellLifecycle.Died)
      else (cell, acc.2)
  (acc.1.set entry.index cellLog.1, cellLog.2)

/-- Embedding of `next_state` from `logic.rs`: clone the board as the
snapshot, run the write loop over the snapshot's iteration, and finally
return whether the board now differs from the snapshot.
Result: (mutated board, mutated life log, changed flag). -/
def nextState (board : Board Cell) (lifeLog : LifeLog) :
    Board Cell × LifeLog × Bool :=
  let snapshot := board
  let res := snapshot.iter.foldl (nextStateStep snapshot) (board, lifeLog)
  (res.1, res.2, decide (res.1 ≠ snapshot))

/-- Embedding of `resize` from `logic.rs`: build a fresh board of the new
dimensions (propagating `Board::new`'s failure on a zero dimension), then
flip — from `Dead` to alive — every position that is live in the old
board and within the new bounds. -/
def resize (board : Board Cell) (x y : Nat) : Option (Board Cell) :=
  (Board.new Cell x y).map (fun newBoard =>
    ((board.iter.filter (fun e =>
        e.cell = Cell.Live ∧ e.x < x ∧ e.y < y)).map Entry.index).foldl
      (fun acc idx => acc.set idx (acc.get idx).flip) newBoard)

end GameLogic

namespace Tui

/-- Embedding of `enum PauseState` from `apps/tui/src/tui.rs`. -/
inductive PauseState : Type
  | Disabled
  | JustEnabled
  | Activated
deriving DecidableEq

/-- Embedding of the `BoardEvent::Pause` arm of `main_loop`: any state
other than `Disabled` goes to `Disabled`; `Disabled` goes to
`JustEnabled`. -/
def pauseEvent (s : PauseState) : PauseState :=
  if s ≠ PauseState.Disabled then PauseState.Disabled else PauseState.JustEnabled

/-- Embedding of the `is_paused` match at the end of a `main_loop`
iteration: returns the state for the next iteration together with
whether this iteration counts as paused.  `JustEnabled` advances to
`Activated` while still counting as not paused. -/
def pauseResolve : PauseState → PauseState × Bool
  | PauseState.Disabled => (PauseState.Disabled, false)
  | PauseState.JustEnabled => (PauseState.Activated, false)
  | PauseState.Activated => (PauseState.Activated, true)

/-- One `main_loop` iteration's effect on the pause state: the pause
inputs drained during the polling slice (one `pauseEvent` each), then the
end-of-iteration `is_paused` resolution.  Returns the state entering the
next iteration and whether this iteration was paused. -/
def iterationPause (s : PauseState) (pauseInputs : List Unit) : PauseState × Bool :=
  pauseResolve (pauseInputs.foldl (fun st _ => pauseEvent st) s)

/-- Embedding of the generation-advance guard
`if should_compute_state && !is_paused { next_state(...) }`. -/
def advances (shouldCompute : Bool) (s : PauseState) : Bool :=
  shouldCompute && !(pauseResolve s).2

/-- Embedding of `Duration::from_millis(64)`, the initial
`frame_duration`, in nanoseconds. -/
def initialFrameDuration : Nat := 64 * 1000000

/-- Embedding of the `BoardEvent::Speed(increase)` arm of `main_loop`:
`frame_duration /= 2` on speed-up, `frame_duration *= 2` on speed-down.
`Duration` is total nanoseconds; division by 2 truncates exactly as
Rust's `Duration::div` does. -/
def speedEvent (increase : Bool) (frameDuration : Nat) : Nat :=
  if increase then frameDuration / 2 else frameDuration * 2

end Tui

namespace GameLogic

/-- The new cell computed by the `match` inside `next_state`, as a
function of the snapshot cell and its live-neighbour count. -/
def ruleCell (cell : Cell) (n : Nat) : Cell :=
  match cell with
  | Cell.Dead => if n = 3 then Cell.Live else cell
  | Cell.Live =>
    if n < 2 then Cell.Dead
    else if n > 3 then Cell.Dead
    else cell

/-- The lifecycle entry the `match` inside `next_state` logs (if any), as
a function of the snapshot cell and its live-neighbour count. -/
def ruleLog (cell : Cell) (n : Nat) : Option CellLifecycle :=
  match cell with
  | Cell.Dead => if n = 3 then some CellLifecycle.Born else none
  | Cell.Live =>
    if n < 2 then some CellLifecycle.Died
    else if n > 3 then some CellLifecycle.Died
    else none

/-- One loop step's effect of `next_state` on `life_log` at position `q`. -/
def logUpd (b : Board Cell) (lg : LifeLog) (q : Nat × Nat) : LifeLog :=
  match ruleLog (b.get q) (countLiveNeighbours b q) with
  | some v => lg.insert q v
  | none => lg

/-- The board produced by the write loop of `next_state`, expressed as a
fold of position-determined writes over the iteration order. -/
def boardNext (b : Board Cell) : Board Cell :=
  (iterIndices b.width b.height).foldl
    (fun bd q => bd.set q (ruleCell (b.get q) (countLiveNeighbours b q))) b

/-- The life log produced by the write loop of `next_state`, expressed as
a fold over the iteration order. -/
def logNext (b : Board Cell) (lg : LifeLog) : LifeLog :=
  (iterIndices b.width b.height).foldl (logUpd b) lg

/-- The standard Life rule set exactly as the spec enumerates it:
live with fewer than 2 live neighbours dies; live with 2 or 3 survives;
live with more than 3 dies; dead with exactly 3 becomes live; any other
dead cell stays dead. -/
def standardLifeRules (cell : Cell) (n : Nat) : Cell :=
  match cell with
  | Cell.Live =>
    if n < 2 then Cell.Dead
    else if n = 2 ∨ n = 3 then Cell.Live
    else Cell.Dead
  | Cell.Dead => if n = 3 then Cell.Live else Cell.Dead

/-- The eight positions surrounding `(x, y)`, unwrapped, in the order the
nested offset loops of `count_live_neighbours` visit them (centre
excluded), matching the spec's "8 positions surrounding `p`". -/
def surroundingPositions (x y : Int) : List (Int × Int) :=
  [(x - 1, y - 1), (x - 1, y), (x - 1, y + 1),
   (x, y - 1), (x, y + 1),
   (x + 1, y - 1), (x + 1, y), (x + 1, y + 1)]

/-- Wrap an unwrapped coordinate pair onto the grid by Euclidean
(always-non-negative) remainder modulo width and height, as the spec
describes the toroidal topology. -/
def wrapPos (b : Board Cell) (q : Int × Int) : Nat × Nat :=
  ((q.1.emod (b.width : Int)).toNat, (q.2.emod (b.height : Int)).toNat)

/-- Spec-side neighbour count: the number of live cells among the 8
wrapped positions surrounding `p`, the cell `p` itself (the centre
offset) excluded. -/
def specNeighbourCount (b : Board Cell) (p : Nat × Nat) : Nat :=
  ((surroundingPositions (p.1 : Int) (p.2 : Int)).filter
    (fun q => decide (b.get (wrapPos b q) = Cell.Live))).length

/-- The list of positions the `resize` fold flips: indices of old-board
entries that are live and inside the new bounds. -/
def resizeIndices (b : Board Cell) (x y : Nat) : List (Nat × Nat) :=
  (b.iter.filter (fun e =>
    decide (e.cell = Cell.Live ∧ e.x < x ∧ e.y < y))).map Entry.index

end GameLogic

/-- A 3×3 grid whose only live cell is `(0, 0)` (two-state variant),
row-major backing vector. -/
def singleLiveBoard3 : Board GameLogic.Cell :=
  ⟨[GameLogic.Cell.Live, GameLogic.Cell.Dead, GameLogic.Cell.Dead,
    GameLogic.Cell.Dead, GameLogic.Cell.Dead, GameLogic.Cell.Dead,
    GameLogic.Cell.Dead, GameLogic.Cell.Dead, GameLogic.Cell.Dead], 3, 3⟩

/-- A 4×4 grid holding a 2×2 fully-live block at the origin — a still
life not self-adjacent through the wraparound. -/
def stillBlockBoard4 : Board GameLogic.Cell :=
  ⟨[GameLogic.Cell.Live, GameLogic.Cell.Live, GameLogic.Cell.Dead, GameLogic.Cell.Dead,
    GameLogic.Cell.Live, GameLogic.Cell.Live, GameLogic.Cell.Dead, GameLogic.Cell.Dead,
    GameLogic.Cell.Dead, GameLogic.Cell.Dead, GameLogic.Cell.Dead, GameLogic.Cell.Dead,
    GameLogic.Cell.Dead, GameLogic.Cell.Dead, GameLogic.Cell.Dead, GameLogic.Cell.Dead], 4, 4⟩

/-- A 2×2 grid with a single live cell at `(0, 0)` (two-state variant). -/
def cornerBoard2 : Board GameLogic.Cell :=
  ⟨[GameLogic.Cell.Live, GameLogic.Cell.Dead,
    GameLogic.Cell.Dead, GameLogic.Cell.Dead], 2, 2⟩

/-- A 3×3 grid with live cells at `(0, 0)` and `(2, 2)`, used to witness
resizing to 2×2 (the `(2, 2)` cell is dropped). -/
def resizeWitnessBoard3 : Board GameLogic.Cell :=
  ⟨[GameLogic.Cell.Live, GameLogic.Cell.Dead, GameLogic.Cell.Dead,
    GameLogic.Cell.Dead, GameLogic.Cell.Dead, GameLogic.Cell.Dead,
    GameLogic.Cell.Dead, GameLogic.Cell.Dead, GameLogic.Cell.Live], 3, 3⟩

/-- The expected result of resizing `resizeWitnessBoard3` to 2×2. -/
def resizedWitnessBoard2 : Board GameLogic.Cell :=
  ⟨[GameLogic.Cell.Live, GameLogic.Cell.Dead,
    GameLogic.Cell.Dead, GameLogic.Cell.Dead], 2, 2⟩

/-- A 2×2 grid with a single live cell at `(0, 0)` and a pre-existing
lifecycle entry at `(1, 1)` used to witness life-log preservation. -/
def logWitnessBoard2 : Board GameLogic.Cell :=
  ⟨[GameLogic.Cell.Live, GameLogic.Cell.Dead,
    GameLogic.Cell.Dead, GameLogic.Cell.Dead], 2, 2⟩

/-- A life log with one earlier-generation entry, at `(1, 1)`. -/
def logWitnessLog : GameLogic.LifeLog :=
  GameLogic.LifeLog.empty.insert (1, 1) GameLogic.CellLifecycle.Born

/-- The 2×2 grid of the repository's `iterator` test: `(0, 0)` and
`(0, 1)` alive (four-state variant), row-major backing vector. -/
def markerBoard2 : Board GameBoard.Cell :=
  ⟨[GameBoard.Cell.Alive, GameBoard.Cell.Dead,
    GameBoard.Cell.Alive, GameBoard.Cell.Dead], 2, 2⟩

/-- A 2×2 grid with `(0, 0)` alive (four-state variant), used to witness
mouse-click toggling. -/
def clickBoard2 : Board GameBoard.Cell :=
  ⟨[GameBoard.Cell.Alive, GameBoard.Cell.Dead,
    GameBoard.Cell.Dead, GameBoard.Cell.Dead], 2, 2⟩

/-- `clickBoard2` after a click on `(0, 0)`: the alive cell flips to
`Died`. -/
def clickedBoard2 : Board GameBoard.Cell :=
  ⟨[GameBoard.Cell.Died, GameBoard.Cell.Dead,
    GameBoard.Cell.Dead, GameBoard.Cell.Dead], 2, 2⟩

/-- A fresh 5×8 all-dead grid (four-state variant), the expected value of
`Board::new(5, 8)`. -/
def newBoard58 : Board GameBoard.Cell :=
  ⟨List.replicate 40 GameBoard.Cell.Dead, 5, 8⟩

theorem iterFuel_none {α : Type} [Inhabited α] (b : Board α) (fuel : Nat) :
    iterFuel b fuel none = [] := by
  cases fuel <;> rfl

theorem range_drop_cons {n y : Nat} (h : y < n) :
    (List.range n).drop y = y :: (List.range n).drop (y + 1) := by
  have hlen : y < (List.range n).length := by simpa using h
  rw [List.drop_eq_getElem_cons hlen, List.getElem_range]

theorem range_drop_past {n y : Nat} (h : n ≤ y) : (List.range n).drop y = [] := by
  apply List.drop_eq_nil_of_le
  simpa using h

theorem iterFuel_suffix {α : Type} [Inhabited α] (b : Board α) :
    ∀ fuel x y, x < b.width → y < b.height →
      (b.width - x) * b.height - y ≤ fuel →
      iterFuel b fuel (some (x, y)) =
        (suffixIndices b.width b.height x y).map (fun p => Entry.mk (b.get p) p) := by
  intro fuel
  induction fuel with
  | zero =>
    intro x y hx hy hle
    exfalso
    have hh : b.height ≤ (b.width - x) * b.height :=
      Nat.le_mul_of_pos_left _ (by omega)
    omega
  | succ n ih =>
    intro x y hx hy hle
    show Entry.mk (b.get (x, y)) (x, y) ::
        iterFuel b n (incrementIndex b.width b.height (x, y)) = _
    by_cases hyh : y + 1 < b.height
    · have h1 : ¬ b.height ≤ y + 1 := by omega
      have h2 : ¬ (b.width ≤ x ∨ b.height ≤ y + 1) := by omega
      have hinc : incrementIndex b.width b.height (x, y) = some (x, y + 1) := by
        simp [incrementIndex, h1, h2]
        omega
      rw [hinc, ih x (y + 1) hx hyh (by omega)]
      have hsuf : suffixIndices b.width b.height x y =
          (x, y) :: suffixIndices b.width b.height x (y + 1) := by
        unfold suffixIndices
        rw [range_drop_cons hy, List.map_cons, List.cons_append]
      rw [hsuf, List.map_cons]
    · have hy1 : y + 1 = b.height := by omega
      have hdropy : (List.range b.height).drop y = [y] := by
        rw [range_drop_cons hy, range_drop_past (by omega)]
      by_cases hxw : x + 1 < b.width
      · have h1 : b.height ≤ y + 1 := by omega
        have h2 : ¬ (b.width ≤ x + 1 ∨ b.height ≤ 0) := by omega
        have hinc : incrementIndex b.width b.height (x, y) = some (x + 1, 0) := by
          simp [incrementIndex, h1, h2]
          omega
        have hsplit : (b.width - x) * b.height = (b.width - (x + 1)) * b.height + b.height := by
          have hwx : b.width - x = (b.width - (x + 1)) + 1 := by omega
          rw [hwx, Nat.succ_mul]
        rw [hinc, ih (x + 1) 0 hxw (by omega) (by omega)]
        have hsuf : suffixIndices b.width b.height x y =
            (x, y) :: suffixIndices b.width b.height (x + 1) 0 := by
          unfold suffixIndices
          rw [hdropy, range_drop_cons hxw, List.flatMap_cons, List.drop_zero]
          simp [colIndices]
        rw [hsuf, List.map_cons]
      · have hxw1 : x + 1 = b.width := by omega
        have h1 : b.height ≤ y + 1 := by omega
        have h2 : b.width ≤ x + 1 ∨ b.height ≤ 0 := by omega
        have hinc : incrementIndex b.width b.height (x, y) = none := by
          simp [incrementIndex, h1, h2]
          omega
        have hdropx : (List.range b.width).drop (x + 1) = [] :=
          range_drop_past (by omega)
        rw [hinc, iterFuel_none]
        unfold suffixIndices
        rw [hdropy, hdropx]
        simp

theorem board_iter_eq {α : Type} [Inhabited α] (b : Board α) :
    b.iter = (iterIndices b.width b.height).map (fun p => Entry.mk (b.get p) p) := by
  by_cases hw : 0 < b.width
  · by_cases hh : 0 < b.height
    · have h0 := iterFuel_suffix b (b.width * b.height) 0 0 hw hh (by simp)
      have hr : List.range b.width = 0 :: (List.range b.width).drop (0 + 1) := by
        have hc := @range_drop_cons b.width 0 hw
        simpa using hc
      have hsuf : suffixIndices b.width b.height 0 0 = iterIndices b.width b.height := by
        unfold suffixIndices iterIndices
        rw [List.drop_zero]
        conv_rhs => rw [hr]
        rw [List.flatMap_cons]
        rfl
      rw [Board.iter, h0, hsuf]
    · have hh0 : b.height = 0 := by omega
      have hfuel : b.width * b.height = 0 := by rw [hh0, Nat.mul_zero]
      rw [Board.iter, hfuel]
      unfold iterIndices
      simp [colIndices, hh0, iterFuel]
  · have hw0 : b.width = 0 := by omega
    have hfuel : b.width * b.height = 0 := by rw [hw0, Nat.zero_mul]
    rw [Board.iter, hfuel]
    unfold iterIndices
    simp [hw0, iterFuel]

theorem mem_colIndices {x h : Nat} {p : Nat × Nat} :
    p ∈ colIndices x h ↔ p.1 = x ∧ p.2 < h := by
  unfold colIndices
  constructor
  · intro hp
    obtain ⟨y, hy, rfl⟩ := List.mem_map.mp hp
    exact ⟨rfl, by simpa using hy⟩
  · intro ⟨h1, h2⟩
    apply List.mem_map.mpr
    exact ⟨p.2, by simpa using h2, by rw [← h1]⟩

theorem mem_iterIndices {w h : Nat} {p : Nat × Nat} :
    p ∈ iterIndices w h ↔ p.1 < w ∧ p.2 < h := by
  unfold iterIndices
  rw [List.mem_flatMap]
  constructor
  · intro ⟨x, hx, hp⟩
    obtain ⟨h1, h2⟩ := mem_colIndices.mp hp
    exact ⟨h1 ▸ List.mem_range.mp hx, h2⟩
  · intro ⟨h1, h2⟩
    exact ⟨p.1, List.mem_range.mpr h1, mem_colIndices.mpr ⟨rfl, h2⟩⟩

theorem nodup_iterIndices (w h : Nat) : (iterIndices w h).Nodup := by
  unfold iterIndices
  rw [List.nodup_flatMap]
  refine ⟨fun x _ => ?_, ?_⟩
  · exact (List.nodup_range h).map (fun a b hab => by simpa using congrArg Prod.snd hab)
  · have hne : List.Pairwise (· ≠ ·) (List.range w) := List.nodup_range w
    apply hne.imp
    intro a c hac p hpa hpc
    exact hac ((mem_colIndices.mp hpa).1 ▸ (mem_colIndices.mp hpc).1.symm ▸ rfl)

theorem linearIndex_inj {w x x' y y' : Nat} (hx : x < w) (hx' : x' < w)
    (h : y * w + x = y' * w + x') : x = x' ∧ y = y' := by
  have hw : 0 < w := by omega
  have hx0 : (x + y * w) % w = x := by
    rw [Nat.add_mul_mod_self_right, Nat.mod_eq_of_lt hx]
  have hx0' : (x' + y' * w) % w = x' := by
    rw [Nat.add_mul_mod_self_right, Nat.mod_eq_of_lt hx']
  have hy0 : (x + y * w) / w = y := by
    rw [Nat.add_mul_div_right _ _ hw, Nat.div_eq_of_lt hx]
    omega
  have hy0' : (x' + y' * w) / w = y' := by
    rw [Nat.add_mul_div_right _ _ hw, Nat.div_eq_of_lt hx']
    omega
  have h' : x + y * w = x' + y' * w := by omega
  constructor
  · rw [← hx0, ← hx0', h']
  · rw [← hy0, ← hy0', h']

theorem linearIndex_lt {w h x y : Nat} (hx : x < w) (hy : y < h) :
    y * w + x < w * h := by
  calc y * w + x < y * w + w := by omega
    _ = (y + 1) * w := by rw [Nat.succ_mul]
    _ ≤ h * w := Nat.mul_le_mul_right w (by omega)
    _ = w * h := Nat.mul_comm h w

theorem Board.get_set_self {α : Type} [Inhabited α] {b : Board α} (hwf : b.WF)
    {p : Nat × Nat} (hx : p.1 < b.width) (hy : p.2 < b.height) (c : α) :
    (b.set p c).get p = c := by
  unfold Board.get Board.set
  have hlt : p.2 * b.width + p.1 < b.inner.length := by
    rw [hwf]
    exact linearIndex_lt hx hy
  simp [List.getElem?_set_self hlt]

theorem Board.get_set_ne {α : Type} [Inhabited α] {b : Board α}
    {p q : Nat × Nat} (hpx : p.1 < b.width) (hqx : q.1 < b.width)
    (hne : p ≠ q) (c : α) : (b.set q c).get p = b.get p := by
  unfold Board.get Board.set
  have hidx : q.2 * b.width + q.1 ≠ p.2 * b.width + p.1 := by
    intro hcontra
    obtain ⟨h1, h2⟩ := linearIndex_inj hqx hpx hcontra
    exact hne (Prod.ext h1.symm h2.symm)
  simp [List.getElem?_set_ne hidx]

theorem Board.set_width {α : Type} (b : Board α) (p : Nat × Nat) (c : α) :
    (b.set p c).width = b.width := rfl

theorem Board.set_height {α : Type} (b : Board α) (p : Nat × Nat) (c : α) :
    (b.set p c).height = b.height := rfl

theorem Board.set_WF {α : Type} {b : Board α} (hwf : b.WF) (p : Nat × Nat) (c : α) :
    (b.set p c).WF := by
  simpa [Board.WF, Board.set] using hwf

/-- A fold that only writes through `Board.set` at positions from `L`,
with the written value a function of the position alone, leaves every
in-bounds position outside `L` unchanged. -/
theorem foldl_set_get_not_mem {α : Type} [Inhabited α] (g : Nat × Nat → α) :
    ∀ (L : List (Nat × Nat)) (b : Board α), b.WF →
      (∀ q ∈ L, q.1 < b.width ∧ q.2 < b.height) →
      ∀ p : Nat × Nat, p.1 < b.width → p ∉ L →
        ((L.foldl (fun bd q => bd.set q (g q)) b).get p = b.get p ∧
         (L.foldl (fun bd q => bd.set q (g q)) b).width = b.width ∧
         (L.foldl (fun bd q => bd.set q (g q)) b).height = b.height ∧
         (L.foldl (fun bd q => bd.set q (g q)) b).WF) := by
  intro L
  induction L with
  | nil => intro b hwf _ p hpx _; exact ⟨rfl, rfl, rfl, hwf⟩
  | cons q rest ih =>
    intro b hwf hin p hpx hp
    have hq := hin q (List.mem_cons_self q rest)
    have hrest : ∀ r ∈ rest, r.1 < (b.set q (g q)).width ∧ r.2 < (b.set q (g q)).height :=
      fun r hr => hin r (List.mem_cons_of_mem q hr)
    have hstep := ih (b.set q (g q)) (Board.set_WF hwf q (g q)) hrest p hpx
      (fun hmem => hp (List.mem_cons_of_mem q hmem))
    refine ⟨?_, hstep.2⟩
    rw [List.foldl_cons] at *
    rw [hstep.1]
    exact Board.get_set_ne hpx hq.1 (fun hpq => hp (hpq ▸ List.mem_cons_self q rest)) (g q)

/-- A fold of position-determined writes assigns `g p` to every position
`p` of `L` (later writes of the same value are idempotent; here each
position occurs at most once in the uses below, but the lemma only needs
membership). -/
theorem foldl_set_get_mem {α : Type} [Inhabited α] (g : Nat × Nat → α) :
    ∀ (L : List (Nat × Nat)) (b : Board α), b.WF →
      (∀ q ∈ L, q.1 < b.width ∧ q.2 < b.height) →
      ∀ p : Nat × Nat, p ∈ L →
        (L.foldl (fun bd q => bd.set q (g q)) b).get p = g p := by
  intro L
  induction L with
  | nil => intro b _ _ p hp; exact absurd hp (List.not_mem_nil p)
  | cons q rest ih =>
    intro b hwf hin p hp
    have hq := hin q (List.mem_cons_self q rest)
    have hwf' : (b.set q (g q)).WF := Board.set_WF hwf q (g q)
    have hrest : ∀ r ∈ rest, r.1 < (b.set q (g q)).width ∧ r.2 < (b.set q (g q)).height :=
      fun r hr => hin r (List.mem_cons_of_mem q hr)
    rw [List.foldl_cons]
    by_cases hmem : p ∈ rest
    · exact ih (b.set q (g q)) hwf' hrest p hmem
    · have hpq : p = q := by
        rcases List.mem_cons.mp hp with h | h
        · exact h
        · exact absurd h hmem
      subst hpq
      have hnm := foldl_set_get_not_mem g rest (b.set p (g p)) hwf' hrest p hq.1 hmem
      rw [hnm.1]
      exact Board.get_set_self hwf hq.1 hq.2 (g p)

theorem foldl_pair_of_pointwise {α β γ : Type} (h : α × β → γ → α × β)
    (f : α → γ → α) (g : β → γ → β)
    (hpt : ∀ a c e, h (a, c) e = (f a e, g c e)) :
    ∀ (L : List γ) (a : α) (c : β), L.foldl h (a, c) = (L.foldl f a, L.foldl g c) := by
  intro L
  induction L with
  | nil => intro a c; rfl
  | cons q rest ih =>
    intro a c
    rw [List.foldl_cons, List.foldl_cons, List.foldl_cons, hpt]
    exact ih _ _

namespace GameLogic

theorem nextStateStep_eq (b : Board Cell) (a : Board Cell) (c : LifeLog) (q : Nat × Nat) :
    nextStateStep b (a, c) (Entry.mk (b.get q) q) =
      (a.set q (ruleCell (b.get q) (countLiveNeighbours b q)), logUpd b c q) := by
  cases hc : b.get q <;>
    simp only [nextStateStep, ruleCell, logUpd, ruleLog, hc] <;>
    split_ifs <;> rfl

theorem foldl_nextStateStep (b : Board Cell) :
    ∀ (L : List (Nat × Nat)) (a : Board Cell) (c : LifeLog),
      ((L.map (fun p => Entry.mk (b.get p) p)).foldl (nextStateStep b) (a, c)) =
        (L.foldl (fun bd q => bd.set q (ruleCell (b.get q) (countLiveNeighbours b q))) a,
         L.foldl (logUpd b) c) := by
  intro L
  induction L with
  | nil => intro a c; rfl
  | cons q rest ih =>
    intro a c
    rw [List.map_cons, List.foldl_cons, List.foldl_cons, List.foldl_cons, nextStateStep_eq]
    exact ih _ _

theorem nextState_eq (b : Board Cell) (lg : LifeLog) :
    nextState b lg = (boardNext b, logNext b lg, decide (boardNext b ≠ b)) := by
  simp only [nextState, boardNext, logNext]
  rw [board_iter_eq, foldl_nextStateStep]

end GameLogic

theorem foldl_set_gen_invariants {α : Type} (v : Board α → (Nat × Nat) → α) :
    ∀ (L : List (Nat × Nat)) (b : Board α),
      (L.foldl (fun bd q => bd.set q (v bd q)) b).width = b.width ∧
      (L.foldl (fun bd q => bd.set q (v bd q)) b).height = b.height ∧
      (b.WF → (L.foldl (fun bd q => bd.set q (v bd q)) b).WF) := by
  intro L
  induction L with
  | nil => exact fun b => ⟨rfl, rfl, id⟩
  | cons q rest ih =>
    intro b
    obtain ⟨h1, h2, h3⟩ := ih (b.set q (v b q))
    rw [List.foldl_cons]
    exact ⟨h1, h2, fun hwf => h3 (Board.set_WF hwf q (v b q))⟩

namespace GameLogic

theorem boardNext_width (b : Board Cell) : (boardNext b).width = b.width :=
  (foldl_set_gen_invariants _ (iterIndices b.width b.height) b).1

theorem boardNext_height (b : Board Cell) : (boardNext b).height = b.height :=
  (foldl_set_gen_invariants _ (iterIndices b.width b.height) b).2.1

theorem boardNext_WF {b : Board Cell} (hwf : b.WF) : (boardNext b).WF :=
  (foldl_set_gen_invariants _ (iterIndices b.width b.height) b).2.2 hwf

theorem boardNext_get {b : Board Cell} (hwf : b.WF) {p : Nat × Nat}
    (hx : p.1 < b.width) (hy : p.2 < b.height) :
    (boardNext b).get p = ruleCell (b.get p) (countLiveNeighbours b p) := by
  unfold boardNext
  exact foldl_set_get_mem _ (iterIndices b.width b.height) b hwf
    (fun q hq => mem_iterIndices.mp hq) p (mem_iterIndices.mpr ⟨hx, hy⟩)

theorem logUpd_ne (b : Board Cell) (lg : LifeLog) {p q : Nat × Nat} (hne : p ≠ q) :
    logUpd b lg q p = lg p := by
  unfold logUpd
  cases ruleLog (b.get q) (countLiveNeighbours b q) with
  | none => rfl
  | some v => simp [LifeLog.insert, hne]

theorem foldl_logUpd_not_mem (b : Board Cell) :
    ∀ (L : List (Nat × Nat)) (lg : LifeLog) (p : Nat × Nat), p ∉ L →
      (L.foldl (logUpd b) lg) p = lg p := by
  intro L
  induction L with
  | nil => intro lg p _; rfl
  | cons q rest ih =>
    intro lg p hp
    rw [List.foldl_cons, ih (logUpd b lg q) p (fun h => hp (List.mem_cons_of_mem q h))]
    exact logUpd_ne b lg (fun h => hp (h ▸ List.mem_cons_self q rest))

theorem foldl_logUpd_mem (b : Board Cell) :
    ∀ (L : List (Nat × Nat)) (lg : LifeLog) (p : Nat × Nat), p ∈ L → L.Nodup →
      (L.foldl (logUpd b) lg) p =
        (match ruleLog (b.get p) (countLiveNeighbours b p) with
          | some v => some v
          | none => lg p) := by
  intro L
  induction L with
  | nil => intro lg p hp _; exact absurd hp (List.not_mem_nil p)
  | cons q rest ih =>
    intro lg p hp hnd
    rw [List.foldl_cons]
    by_cases hmem : p ∈ rest
    · rw [ih (logUpd b lg q) p hmem (List.Nodup.of_cons hnd)]
      have hpq : p ≠ q := by
        intro hcontra
        exact (List.nodup_cons.mp hnd).1 (hcontra ▸ hmem)
      cases ruleLog (b.get p) (countLiveNeighbours b p) with
      | none => exact logUpd_ne b lg hpq
      | some v => rfl
    · have hpq : p = q := by
        rcases List.mem_cons.mp hp with h | h
        · exact h
        · exact absurd h hmem
      subst hpq
      rw [foldl_logUpd_not_mem b rest (logUpd b lg p) p hmem]
      unfold logUpd
      cases ruleLog (b.get p) (countLiveNeighbours b p) with
      | none => rfl
      | some v => simp [LifeLog.insert]

theorem logUpd_isSome (b : Board Cell) (lg : LifeLog) (q p : Nat × Nat)
    (h : (lg p).isSome) : ((logUpd b lg q) p).isSome := by
  unfold logUpd
  cases ruleLog (b.get q) (countLiveNeighbours b q) with
  | none => exact h
  | some v =>
    by_cases hpq : p = q
    · subst hpq; simp [LifeLog.insert]
    · simpa [LifeLog.insert, hpq] using h

theorem foldl_logUpd_isSome (b : Board Cell) :
    ∀ (L : List (Nat × Nat)) (lg : LifeLog) (p : Nat × Nat),
      (lg p).isSome → ((L.foldl (logUpd b) lg) p).isSome := by
  intro L
  induction L with
  | nil => intro lg p h; exact h
  | cons q rest ih =>
    intro lg p h
    rw [List.foldl_cons]
    exact ih (logUpd b lg q) p (logUpd_isSome b lg q p h)

theorem logNext_mem {b : Board Cell} {p : Nat × Nat} (lg : LifeLog)
    (hx : p.1 < b.width) (hy : p.2 < b.height) :
    logNext b lg p =
      (match ruleLog (b.get p) (countLiveNeighbours b p) with
        | some v => some v
        | none => lg p) :=
  foldl_logUpd_mem b (iterIndices b.width b.height) lg p
    (mem_iterIndices.mpr ⟨hx, hy⟩) (nodup_iterIndices b.width b.height)

theorem logNext_not_mem {b : Board Cell} {p : Nat × Nat} (lg : LifeLog)
    (h : ¬(p.1 < b.width ∧ p.2 < b.height)) :
    logNext b lg p = lg p :=
  foldl_logUpd_not_mem b (iterIndices b.width b.height) lg p
    (fun hmem => h (mem_iterIndices.mp hmem))

theorem ruleCell_eq_standard (cell : Cell) (n : Nat) :
    ruleCell cell n = standardLifeRules cell n := by
  cases cell <;> simp only [ruleCell, standardLifeRules] <;>
    split_ifs <;> first | rfl | (exfalso; omega)

theorem ruleLog_none_of_unchanged (cell : Cell) (n : Nat)
    (h : ruleCell cell n = cell) : ruleLog cell n = none := by
  cases cell
  · by_cases h3 : n = 3
    · simp [ruleCell, h3] at h
    · simp [ruleLog, h3]
  · by_cases h2 : n < 2
    · simp [ruleCell, h2] at h
    · by_cases h3 : n > 3
      · simp [ruleCell, h2, h3] at h
      · simp [ruleLog, h2, h3]

theorem ruleLog_born (n : Nat) (h : ruleCell Cell.Dead n = Cell.Live) :
    ruleLog Cell.Dead n = some CellLifecycle.Born := by
  by_cases h3 : n = 3
  · simp [ruleLog, h3]
  · simp [ruleCell, h3] at h

theorem ruleLog_died (n : Nat) (h : ruleCell Cell.Live n = Cell.Dead) :
    ruleLog Cell.Live n = some CellLifecycle.Died := by
  by_cases h2 : n < 2
  · simp [ruleLog, h2]
  · by_cases h3 : n > 3
    · simp [ruleLog, h2, h3]
    · simp [ruleCell, h2, h3] at h

end GameLogic

theorem Board.new_none_iff {α : Type} [Inhabited α] (w h : Nat) :
    Board.new α w h = none ↔ (w = 0 ∨ h = 0) := by
  unfold Board.new
  split_ifs with hc
  · simp [hc]
  · simp [hc]

theorem Board.new_some {α : Type} [Inhabited α] {w h : Nat} {b : Board α}
    (hb : Board.new α w h = some b) :
    b.width = w ∧ b.height = h ∧ b.WF ∧ ∀ p : Nat × Nat, b.get p = default := by
  unfold Board.new at hb
  split_ifs at hb with hc
  obtain rfl := Option.some.inj hb
  refine ⟨rfl, rfl, by simp [Board.WF], fun p => ?_⟩
  unfold Board.get
  simp only [List.getElem?_replicate]
  split_ifs <;> rfl

namespace GameLogic

theorem intRangeIncl_around (a : Int) : intRangeIncl (a - 1) (a + 1) = [a - 1, a, a + 1] := by
  have h3 : a + 1 - (a - 1) + 1 = (3 : Int) := by ring
  unfold intRangeIncl
  rw [h3]
  show [a - 1 + 0, a - 1 + 1, a - 1 + 2] = [a - 1, a, a + 1]
  simp only [List.cons.injEq, and_true]
  omega

theorem countBody_eq (b : Board Cell) (p : Nat × Nat) (x y : Int) (acc : Nat) :
    (match validNeighbourIndex b p x y with
      | some idx => if b.get idx = Cell.Live then acc + 1 else acc
      | none => acc) =
    acc + (if ¬(x = (p.1 : Int) ∧ y = (p.2 : Int)) ∧ b.get (wrapPos b (x, y)) = Cell.Live
      then 1 else 0) := by
  unfold validNeighbourIndex
  by_cases hc : x = (p.1 : Int) ∧ y = (p.2 : Int)
  · simp [hc]
  · by_cases hlive :
        b.get ((x.emod (b.width : Int)).toNat, (y.emod (b.height : Int)).toNat) = Cell.Live
    · simp [hc, hlive, wrapPos]
    · simp [hc, hlive, wrapPos]

set_option maxHeartbeats 2000000 in
theorem countLiveNeighbours_eq_spec (b : Board Cell) (p : Nat × Nat) :
    countLiveNeighbours b p = specNeighbourCount b p := by
  obtain ⟨ux, uy⟩ := p
  have hxm : ¬((ux : Int) - 1 = (ux : Int)) := by omega
  have hxp : ¬((ux : Int) + 1 = (ux : Int)) := by omega
  have hym : ¬((uy : Int) - 1 = (uy : Int)) := by omega
  have hyp2 : ¬((uy : Int) + 1 = (uy : Int)) := by omega
  simp only [countLiveNeighbours, intRangeIncl_around, List.foldl_cons, List.foldl_nil,
    countBody_eq]
  rw [specNeighbourCount, ← List.countP_eq_length_filter]
  simp only [surroundingPositions, List.countP_cons, List.countP_nil, decide_eq_true_eq]
  simp only [hxm, hxp, hym, hyp2, eq_self_iff_true, true_and, and_true, false_and,
    and_false, not_false_eq_true, not_true_eq_false, if_true, if_false, add_zero, zero_add]
  split_ifs <;> rfl

end GameLogic

theorem foldl_set_rmw_not_mem {α : Type} [Inhabited α] (f : α → α) :
    ∀ (L : List (Nat × Nat)) (b : Board α), b.WF →
      (∀ q ∈ L, q.1 < b.width ∧ q.2 < b.height) →
      ∀ p : Nat × Nat, p.1 < b.width → p ∉ L →
        (L.foldl (fun bd q => bd.set q (f (bd.get q))) b).get p = b.get p := by
  intro L
  induction L with
  | nil => intro b _ _ p _ _; rfl
  | cons q rest ih =>
    intro b hwf hin p hpx hp
    have hq := hin q (List.mem_cons_self q rest)
    rw [List.foldl_cons]
    rw [ih (b.set q (f (b.get q))) (Board.set_WF hwf q _)
      (fun r hr => hin r (List.mem_cons_of_mem q hr)) p hpx
      (fun h => hp (List.mem_cons_of_mem q h))]
    exact Board.get_set_ne hpx hq.1 (fun hpq => hp (hpq ▸ List.mem_cons_self q rest)) _

theorem foldl_set_rmw_mem {α : Type} [Inhabited α] (f : α → α) :
    ∀ (L : List (Nat × Nat)) (b : Board α), b.WF →
      (∀ q ∈ L, q.1 < b.width ∧ q.2 < b.height) →
      ∀ p : Nat × Nat, p ∈ L → L.Nodup →
        (L.foldl (fun bd q => bd.set q (f (bd.get q))) b).get p = f (b.get p) := by
  intro L
  induction L with
  | nil => intro b _ _ p hp _; exact absurd hp (List.not_mem_nil p)
  | cons q rest ih =>
    intro b hwf hin p hp hnd
    have hq := hin q (List.mem_cons_self q rest)
    have hwf' : (b.set q (f (b.get q))).WF := Board.set_WF hwf q _
    have hrest : ∀ r ∈ rest, r.1 < b.width ∧ r.2 < b.height :=
      fun r hr => hin r (List.mem_cons_of_mem q hr)
    rw [List.foldl_cons]
    by_cases hmem : p ∈ rest
    · have hpq : p ≠ q := fun hcontra => (List.nodup_cons.mp hnd).1 (hcontra ▸ hmem)
      rw [ih (b.set q (f (b.get q))) hwf' hrest p hmem (List.Nodup.of_cons hnd)]
      rw [Board.get_set_ne (hin p (List.mem_cons_of_mem q hmem)).1 hq.1 hpq]
    · have hpq : p = q := by
        rcases List.mem_cons.mp hp with h | h
        · exact h
        · exact absurd h hmem
      subst hpq
      rw [foldl_set_rmw_not_mem f rest (b.set p (f (b.get p))) hwf' hrest p hq.1 hmem]
      rw [Board.get_set_self hwf hq.1 hq.2]

namespace GameLogic

theorem mem_resizeIndices {b : Board Cell} {x y : Nat} {p : Nat × Nat} :
    p ∈ resizeIndices b x y ↔
      (p.1 < b.width ∧ p.2 < b.height ∧ b.get p = Cell.Live ∧ p.1 < x ∧ p.2 < y) := by
  unfold resizeIndices
  rw [board_iter_eq]
  simp only [List.mem_map, List.mem_filter, List.mem_map, decide_eq_true_eq]
  constructor
  · rintro ⟨e, ⟨⟨q, hq, rfl⟩, hcell, hex, hey⟩, rfl⟩
    obtain ⟨h1, h2⟩ := mem_iterIndices.mp hq
    exact ⟨h1, h2, hcell, hex, hey⟩
  · rintro ⟨h1, h2, hcell, hex, hey⟩
    exact ⟨Entry.mk (b.get p) p, ⟨⟨p, mem_iterIndices.mpr ⟨h1, h2⟩, rfl⟩, hcell, hex, hey⟩, rfl⟩

theorem nodup_resizeIndices (b : Board Cell) (x y : Nat) :
    (resizeIndices b x y).Nodup := by
  unfold resizeIndices
  rw [board_iter_eq]
  have hmapmap : ∀ (L : List (Nat × Nat)) (pred : Entry Cell → Bool),
      ((L.map (fun p => Entry.mk (b.get p) p)).filter pred).map Entry.index =
        L.filter (fun p => pred (Entry.mk (b.get p) p)) := by
    intro L pred
    rw [List.filter_map, List.map_map]
    exact List.map_id'' (fun p => rfl) _
  rw [hmapmap]
  exact List.Nodup.filter _ (nodup_iterIndices b.width b.height)

theorem resize_eq_none {b : Board Cell} {x y : Nat} :
    resize b x y = none ↔ (x = 0 ∨ y = 0) := by
  unfold resize
  rw [Option.map_eq_none']
  exact Board.new_none_iff x y

theorem resize_get {b : Board Cell} {x y : Nat} {r : Board Cell}
    (hr : resize b x y = some r) :
    r.width = x ∧ r.height = y ∧ r.WF ∧
      ∀ p : Nat × Nat, p.1 < x → p.2 < y →
        (r.get p = Cell.Live ↔
          (p.1 < b.width ∧ p.2 < b.height ∧ b.get p = Cell.Live)) := by
  unfold resize at hr
  rw [Option.map_eq_some'] at hr
  obtain ⟨nb, hnb, hfold⟩ := hr
  obtain ⟨hnw, hnh, hnwf, hndead⟩ := Board.new_some hnb
  have hfold' : r = (resizeIndices b x y).foldl
      (fun acc idx => acc.set idx (acc.get idx).flip) nb := by
    rw [← hfold]
    rfl
  have hbounds : ∀ q ∈ resizeIndices b x y, q.1 < nb.width ∧ q.2 < nb.height := by
    intro q hq
    obtain ⟨_, _, _, hx, hy⟩ := mem_resizeIndices.mp hq
    exact ⟨hnw ▸ hx, hnh ▸ hy⟩
  have hinv := foldl_set_gen_invariants (fun bd q => (bd.get q).flip)
    (resizeIndices b x y) nb
  refine ⟨?_, ?_, ?_, ?_⟩
  · rw [hfold']; exact hinv.1.trans hnw
  · rw [hfold']; exact hinv.2.1.trans hnh
  · rw [hfold']; exact hinv.2.2 hnwf
  · intro p hpx hpy
    by_cases hmem : p ∈ resizeIndices b x y
    · have := foldl_set_rmw_mem Cell.flip (resizeIndices b x y) nb hnwf hbounds p hmem
        (nodup_resizeIndices b x y)
      rw [hfold', this, hndead p]
      obtain ⟨h1, h2, h3, _, _⟩ := mem_resizeIndices.mp hmem
      exact ⟨fun _ => ⟨h1, h2, h3⟩, fun _ => by trivial⟩
    · have := foldl_set_rmw_not_mem Cell.flip (resizeIndices b x y) nb hnwf hbounds p
        (hnw ▸ hpx) hmem
      rw [hfold', this, hndead p]
      constructor
      · intro hcontra
        exact absurd hcontra (by simp)
      · intro ⟨h1, h2, h3⟩
        exact absurd (mem_resizeIndices.mpr ⟨h1, h2, h3, hpx, hpy⟩) hmem

end GameLogic

theorem board_iter_map_index {α : Type} [Inhabited α] (b : Board α) :
    b.iter.map Entry.index = iterIndices b.width b.height := by
  rw [board_iter_eq, List.map_map]
  exact List.map_id'' (fun p => rfl) _

theorem GameBoard.flip_is_alive (c : GameBoard.Cell) :
    (c.flip).is_alive = !c.is_alive := by
  cases c <;> rfl

/-- C1: one call to `next_state` takes a snapshot of the grid and, for
every in-bounds position `p`, writes into the grid the outcome of the
standard Life rules evaluated on the snapshot's cell at `p` and the
snapshot's live-neighbour count of `p` (underpopulation, survival on 2–3,
overpopulation, birth on exactly 3, dead otherwise stays dead); since the
right-hand side is a function of the pre-step board alone, no cell's new
state depends on any already-written new state. -/
theorem next_state_applies_standard_rules (b : Board GameLogic.Cell)
    (lg : GameLogic.LifeLog) (hwf : b.WF) (x y : Nat)
    (hx : x < b.width) (hy : y < b.height) :
    (GameLogic.nextState b lg).1.get (x, y) =
      GameLogic.standardLifeRules (b.get (x, y))
        (GameLogic.countLiveNeighbours b (x, y)) := by
  rw [GameLogic.nextState_eq]
  show (GameLogic.boardNext b).get (x, y) = _
  rw [GameLogic.boardNext_get hwf hx hy, GameLogic.ruleCell_eq_standard]

/-- Witness for C1 on a concrete 2×2 grid with one live cell. -/
theorem next_state_applies_standard_rules_witness :
    (GameLogic.nextState cornerBoard2 GameLogic.LifeLog.empty).1.get (0, 0) =
      GameLogic.standardLifeRules (cornerBoard2.get (0, 0))
        (GameLogic.countLiveNeighbours cornerBoard2 (0, 0)) :=
  next_state_applies_standard_rules cornerBoard2 GameLogic.LifeLog.empty
    (by decide) 0 0 (by decide) (by decide)

/-- C2: the live-neighbour count used by the transition step equals the
number of live cells among the 8 positions surrounding `p`, each
coordinate wrapped by Euclidean remainder modulo width and height, with
the cell `p` itself (the centre offset) excluded; in particular, on a
3×3 grid whose only live cell is `(0, 0)`, every other position has
neighbour count exactly 1 and `(0, 0)` itself has count 0. -/
theorem count_live_neighbours_toroidal_spec :
    (∀ (b : Board GameLogic.Cell) (p : Nat × Nat),
      GameLogic.countLiveNeighbours b p = GameLogic.specNeighbourCount b p) ∧
    GameLogic.countLiveNeighbours singleLiveBoard3 (0, 0) = 0 ∧
    GameLogic.countLiveNeighbours singleLiveBoard3 (1, 0) = 1 ∧
    GameLogic.countLiveNeighbours singleLiveBoard3 (2, 0) = 1 ∧
    GameLogic.countLiveNeighbours singleLiveBoard3 (0, 1) = 1 ∧
    GameLogic.countLiveNeighbours singleLiveBoard3 (1, 1) = 1 ∧
    GameLogic.countLiveNeighbours singleLiveBoard3 (2, 1) = 1 ∧
    GameLogic.countLiveNeighbours singleLiveBoard3 (0, 2) = 1 ∧
    GameLogic.countLiveNeighbours singleLiveBoard3 (1, 2) = 1 ∧
    GameLogic.countLiveNeighbours singleLiveBoard3 (2, 2) = 1 :=
  ⟨GameLogic.countLiveNeighbours_eq_spec, by decide, by decide, by decide, by decide,
    by decide, by decide, by decide, by decide, by decide⟩

/-- C3: `resize` fails exactly when a new dimension is zero (propagating
the constructor's failure); otherwise it produces a grid of the new
dimensions in which a position inside the new bounds is live iff it was
live (and in bounds) in the old grid — live cells outside the new bounds
are silently dropped and every other position is dead. -/
theorem resize_preserves_in_bounds_live_cells (b : Board GameLogic.Cell) (x y : Nat) :
    (GameLogic.resize b x y = none ↔ (x = 0 ∨ y = 0)) ∧
    (∀ r : Board GameLogic.Cell, GameLogic.resize b x y = some r →
      r.width = x ∧ r.height = y ∧
      ∀ p : Nat × Nat, p.1 < x → p.2 < y →
        (r.get p = GameLogic.Cell.Live ↔
          (p.1 < b.width ∧ p.2 < b.height ∧ b.get p = GameLogic.Cell.Live))) := by
  refine ⟨GameLogic.resize_eq_none, ?_⟩
  intro r hr
  obtain ⟨h1, h2, _, h4⟩ := GameLogic.resize_get hr
  exact ⟨h1, h2, h4⟩

/-- Witness for C3: a 3×3 grid with live `(0, 0)` and `(2, 2)` resized to
2×2 keeps `(0, 0)` live and drops `(2, 2)`. -/
theorem resize_preserves_in_bounds_live_cells_witness :
    resizedWitnessBoard2.width = 2 ∧ resizedWitnessBoard2.height = 2 ∧
    (resizedWitnessBoard2.get (0, 0) = GameLogic.Cell.Live ↔
      (0 < resizeWitnessBoard3.width ∧ 0 < resizeWitnessBoard3.height ∧
        resizeWitnessBoard3.get (0, 0) = GameLogic.Cell.Live)) := by
  have h := (resize_preserves_in_bounds_live_cells resizeWitnessBoard3 2 2).2
    resizedWitnessBoard2 (by decide)
  exact ⟨h.1, h.2.1, h.2.2 (0, 0) (by decide) (by decide)⟩

/-- C4: `next_state` returns `true` exactly when the resulting grid
differs from the pre-step snapshot; on the 4×4 grid holding a 2×2 still
life the grid is unchanged and the flag is `false`, and repeated calls
keep the grid identical and the flag `false`. -/
theorem next_state_changed_iff_differs (b : Board GameLogic.Cell)
    (lg : GameLogic.LifeLog) :
    ((GameLogic.nextState b lg).2.2 = true ↔ (GameLogic.nextState b lg).1 ≠ b) ∧
    (GameLogic.nextState stillBlockBoard4 GameLogic.LifeLog.empty).1 = stillBlockBoard4 ∧
    (GameLogic.nextState stillBlockBoard4 GameLogic.LifeLog.empty).2.2 = false ∧
    (∀ k : Nat,
      Nat.iterate (fun bd => (GameLogic.nextState bd GameLogic.LifeLog.empty).1) k
        stillBlockBoard4 = stillBlockBoard4 ∧
      (GameLogic.nextState
        (Nat.iterate (fun bd => (GameLogic.nextState bd GameLogic.LifeLog.empty).1) k
          stillBlockBoard4) GameLogic.LifeLog.empty).2.2 = false) := by
  have hstill : (GameLogic.nextState stillBlockBoard4 GameLogic.LifeLog.empty).1 =
      stillBlockBoard4 := by decide
  have hflag : (GameLogic.nextState stillBlockBoard4 GameLogic.LifeLog.empty).2.2 =
      false := by decide
  refine ⟨?_, hstill, hflag, ?_⟩
  · rw [GameLogic.nextState_eq]
    simp
  · intro k
    induction k with
    | zero => exact ⟨rfl, hflag⟩
    | succ n ih =>
      have hstep := Function.iterate_succ_apply'
        (fun bd => (GameLogic.nextState bd GameLogic.LifeLog.empty).1) n stillBlockBoard4
      rw [hstep, ih.1]
      exact ⟨hstill, hflag⟩

/-- Witness for C4 at a concrete 2×2 grid (the changed flag is the
grid-difference test there as everywhere). -/
theorem next_state_changed_iff_differs_witness :
    ((GameLogic.nextState cornerBoard2 GameLogic.LifeLog.empty).2.2 = true ↔
      (GameLogic.nextState cornerBoard2 GameLogic.LifeLog.empty).1 ≠ cornerBoard2) ∧
    (GameLogic.nextState stillBlockBoard4 GameLogic.LifeLog.empty).1 = stillBlockBoard4 ∧
    (GameLogic.nextState stillBlockBoard4 GameLogic.LifeLog.empty).2.2 = false ∧
    (∀ k : Nat,
      Nat.iterate (fun bd => (GameLogic.nextState bd GameLogic.LifeLog.empty).1) k
        stillBlockBoard4 = stillBlockBoard4 ∧
      (GameLogic.nextState
        (Nat.iterate (fun bd => (GameLogic.nextState bd GameLogic.LifeLog.empty).1) k
          stillBlockBoard4) GameLogic.LifeLog.empty).2.2 = false) :=
  next_state_changed_iff_differs cornerBoard2 GameLogic.LifeLog.empty

/-- C5: `Board::new(width, height)` fails exactly when a dimension is 0,
and otherwise returns a grid of those dimensions with every position
dead. -/
theorem board_new_spec :
    (∀ w h : Nat, Board.new GameBoard.Cell w h = none ↔ (w = 0 ∨ h = 0)) ∧
    (∀ w h : Nat, ∀ b : Board GameBoard.Cell, Board.new GameBoard.Cell w h = some b →
      b.width = w ∧ b.height = h ∧ ∀ p : Nat × Nat, b.get p = GameBoard.Cell.Dead) := by
  refine ⟨fun w h => Board.new_none_iff w h, fun w h b hb => ?_⟩
  obtain ⟨h1, h2, _, h4⟩ := Board.new_some hb
  exact ⟨h1, h2, h4⟩

/-- Witness for C5: `new(5, 8)` gives a 5×8 all-dead grid and
`new(0, 0)` fails. -/
theorem board_new_spec_witness :
    Board.new GameBoard.Cell 0 0 = none ∧
    newBoard58.width = 5 ∧ newBoard58.height = 8 ∧
    newBoard58.get (2, 3) = GameBoard.Cell.Dead := by
  have h := board_new_spec.2 5 8 newBoard58 (by decide)
  exact ⟨(board_new_spec.1 0 0).mpr (Or.inl rfl), h.1, h.2.1, h.2.2 (2, 3)⟩

/-- C6: iteration is a finite traversal yielding each in-bounds position,
paired with its cell, exactly once (and no out-of-bounds position at
all); iteration is embedded as a pure function of the board, so every
call yields the same fresh traversal; in the fixed column-major,
row-then-column order, the 2×2 grid with `(0, 0)` and `(0, 1)` alive
yields the marker string "OOXX". -/
theorem board_iteration_spec :
    (∀ (b : Board GameBoard.Cell) (p : Nat × Nat), p.1 < b.width → p.2 < b.height →
      (b.iter.map Entry.index).countP (fun q => decide (q = p)) = 1) ∧
    (∀ (b : Board GameBoard.Cell) (p : Nat × Nat), ¬(p.1 < b.width ∧ p.2 < b.height) →
      (b.iter.map Entry.index).countP (fun q => decide (q = p)) = 0) ∧
    (∀ (b : Board GameBoard.Cell), ∀ e ∈ b.iter, e.cell = b.get e.index) ∧
    GameBoard.iterString markerBoard2 = "OOXX" := by
  refine ⟨?_, ?_, ?_, by decide⟩
  · intro b p h1 h2
    rw [board_iter_map_index]
    exact @List.count_eq_one_of_mem (Nat × Nat) _ p (iterIndices b.width b.height)
      (nodup_iterIndices b.width b.height) (mem_iterIndices.mpr ⟨h1, h2⟩)
  · intro b p h
    rw [board_iter_map_index]
    refine List.countP_eq_zero.mpr ?_
    intro q hq hqp
    exact h (mem_iterIndices.mp ((of_decide_eq_true hqp) ▸ hq))
  · intro b e he
    rw [board_iter_eq] at he
    obtain ⟨q, _, rfl⟩ := List.mem_map.mp he
    rfl

/-- Witness for C6 on the 2×2 marker grid: position `(0, 1)` is yielded
exactly once, and the marker string is "OOXX". -/
theorem board_iteration_spec_witness :
    (markerBoard2.iter.map Entry.index).countP (fun q => decide (q = (0, 1))) = 1 ∧
    GameBoard.iterString markerBoard2 = "OOXX" :=
  ⟨board_iteration_spec.1 markerBoard2 (0, 1) (by decide) (by decide),
    board_iteration_spec.2.2.2⟩

/-- C7 counterexample: starting a loop iteration in `JustEnabled`, a
further pause input during that iteration sends the state to `Disabled`,
so the state entering the next iteration is not `Activated` — the
transition to `Activated` is not unconditional ("regardless of further
input") as the claim states, and `JustEnabled` has a pause-input
transition the claimed transition list omits. -/
theorem pause_just_enabled_interrupted_counterexample :
    (Tui.iterationPause Tui.PauseState.JustEnabled [()]).1 = Tui.PauseState.Disabled ∧
    (Tui.iterationPause Tui.PauseState.JustEnabled [()]).1 ≠ Tui.PauseState.Activated := by
  decide

/-- C7 amended: a pause input in `Disabled` moves to `JustEnabled`; a
pause input in `JustEnabled` or in `Activated` moves to `Disabled`; from
`JustEnabled`, if no pause input intervenes during the iteration, the
state becomes `Activated` at the end of the iteration; `Disabled` and
`JustEnabled` both count as not paused for the current iteration, and
only `Activated` suppresses generation advancement. -/
theorem pause_state_machine_amended :
    Tui.pauseEvent Tui.PauseState.Disabled = Tui.PauseState.JustEnabled ∧
    Tui.pauseEvent Tui.PauseState.JustEnabled = Tui.PauseState.Disabled ∧
    Tui.pauseEvent Tui.PauseState.Activated = Tui.PauseState.Disabled ∧
    Tui.iterationPause Tui.PauseState.JustEnabled [] =
      (Tui.PauseState.Activated, false) ∧
    Tui.pauseResolve Tui.PauseState.Disabled = (Tui.PauseState.Disabled, false) ∧
    Tui.pauseResolve Tui.PauseState.JustEnabled = (Tui.PauseState.Activated, false) ∧
    Tui.pauseResolve Tui.PauseState.Activated = (Tui.PauseState.Activated, true) ∧
    Tui.advances true Tui.PauseState.Disabled = true ∧
    Tui.advances true Tui.PauseState.JustEnabled = true ∧
    Tui.advances true Tui.PauseState.Activated = false ∧
    Tui.advances false Tui.PauseState.Disabled = false ∧
    Tui.advances false Tui.PauseState.JustEnabled = false ∧
    Tui.advances false Tui.PauseState.Activated = false := by
  decide

/-- C8 counterexample: the frame duration starts strictly positive, yet
26 consecutive speed-up inputs — one allowed input sequence — truncate it
to the zero duration, so strict positivity is not preserved. -/
theorem frame_duration_zero_counterexample :
    0 < Tui.initialFrameDuration ∧
    Nat.iterate (Tui.speedEvent true) 26 Tui.initialFrameDuration = 0 := by
  decide

/-- C8 amended: the frame duration starts strictly positive (64 ms);
every speed-up input replaces it with its truncated half and every
speed-down input with its double, with no enforced floor or ceiling; but
strict positivity is not an invariant — 26 consecutive speed-up inputs
from the initial value reach the zero duration. -/
theorem frame_duration_speed_control_amended :
    0 < Tui.initialFrameDuration ∧
    (∀ d : Nat, Tui.speedEvent true d = d / 2) ∧
    (∀ d : Nat, Tui.speedEvent false d = d * 2) ∧
    Nat.iterate (Tui.speedEvent true) 26 Tui.initialFrameDuration = 0 :=
  ⟨by decide, fun d => rfl, fun d => rfl, by decide⟩

/-- C9: a mouse click or drag at `(x, y)` never panics: when `(x, y)` is
in bounds (`check_index` true) exactly that cell's aliveness is toggled —
an alive cell becomes dead (`Died`), a dead cell becomes alive (`Born`) —
and all other cells and the dimensions are untouched, the mutating
accessor's bounds assertion being unreachable because `check_index` is
consulted first; when `(x, y)` is out of bounds the event is ignored and
the grid is returned completely unchanged. -/
theorem mouse_click_bounds_safe (b : Board GameBoard.Cell) (hwf : b.WF) (x y : Nat) :
    (GameBoard.mouseClick b x y).isSome = true ∧
    (∀ b' : Board GameBoard.Cell, GameBoard.mouseClick b x y = some b' →
      (b.check_index (x, y) = true →
        b'.get (x, y) = (b.get (x, y)).flip ∧
        (b'.get (x, y)).is_alive = !(b.get (x, y)).is_alive ∧
        (∀ q : Nat × Nat, q.1 < b.width → q ≠ (x, y) → b'.get q = b.get q) ∧
        b'.width = b.width ∧ b'.height = b.height) ∧
      (b.check_index (x, y) = false → b' = b)) := by
  by_cases hin : x < b.width ∧ y < b.height
  · have hchk : b.check_index (x, y) = true := by
      simp [Board.check_index, hin.1, hin.2]
    have hmc : GameBoard.mouseClick b x y =
        some (b.set (x, y) ((b.get (x, y)).flip)) := by
      unfold GameBoard.mouseClick GameBoard.flipAt
      rw [hchk, if_pos, if_pos hin]
      rfl
    refine ⟨by rw [hmc]; rfl, ?_⟩
    intro b' hb'
    rw [hmc] at hb'
    obtain rfl := Option.some.inj hb'
    refine ⟨fun _ => ⟨?_, ?_, ?_, rfl, rfl⟩, fun hcontra => absurd hchk (by rw [hcontra]; simp)⟩
    · exact Board.get_set_self hwf hin.1 hin.2 _
    · rw [Board.get_set_self hwf hin.1 hin.2 _, GameBoard.flip_is_alive]
    · intro q hq hne
      exact Board.get_set_ne hq hin.1 hne _
  · have hchk : b.check_index (x, y) = false := by
      simp only [Board.check_index]
      rcases Decidable.not_and_iff_or_not.mp hin with h | h
      · simp [h]
      · simp [h]
    have hmc : GameBoard.mouseClick b x y = some b := by
      unfold GameBoard.mouseClick
      rw [hchk]
      simp
    refine ⟨by rw [hmc]; rfl, ?_⟩
    intro b' hb'
    rw [hmc] at hb'
    obtain rfl := Option.some.inj hb'
    exact ⟨fun hcontra => absurd hcontra (by rw [hchk]; simp), fun _ => rfl⟩

/-- Witness for C9 on a concrete 2×2 grid with `(0, 0)` alive: the click
succeeds, toggles `(0, 0)` and leaves `(1, 0)` untouched. -/
theorem mouse_click_bounds_safe_witness :
    (GameBoard.mouseClick clickBoard2 0 0).isSome = true ∧
    clickedBoard2.get (0, 0) = (clickBoard2.get (0, 0)).flip ∧
    clickedBoard2.get (1, 0) = clickBoard2.get (1, 0) := by
  have h := mouse_click_bounds_safe clickBoard2 (by decide) 0 0
  have h2 := h.2 clickedBoard2 (by decide)
  have h3 := h2.1 (by decide)
  exact ⟨h.1, h3.1, h3.2.2.1 (1, 0) (by decide) (by decide)⟩

/-- C10: `next_state` only ever inserts entries into the life log —
`Born` where a dead cell becomes live, `Died` where a live cell becomes
dead — and never removes or clears any entry: every entry present before
is still present after, and at every position whose cell does not change
in this call (in particular every out-of-bounds position) the log is left
exactly as it was. -/
theorem next_state_life_log_insert_only (b : Board GameLogic.Cell)
    (lg : GameLogic.LifeLog) (hwf : b.WF) :
    (∀ p : Nat × Nat, (lg p).isSome = true →
      ((GameLogic.nextState b lg).2.1 p).isSome = true) ∧
    (∀ p : Nat × Nat, p.1 < b.width → p.2 < b.height →
      (GameLogic.nextState b lg).1.get p = b.get p →
      (GameLogic.nextState b lg).2.1 p = lg p) ∧
    (∀ p : Nat × Nat, ¬(p.1 < b.width ∧ p.2 < b.height) →
      (GameLogic.nextState b lg).2.1 p = lg p) ∧
    (∀ p : Nat × Nat, p.1 < b.width → p.2 < b.height →
      b.get p = GameLogic.Cell.Dead →
      (GameLogic.nextState b lg).1.get p = GameLogic.Cell.Live →
      (GameLogic.nextState b lg).2.1 p = some GameLogic.CellLifecycle.Born) ∧
    (∀ p : Nat × Nat, p.1 < b.width → p.2 < b.height →
      b.get p = GameLogic.Cell.Live →
      (GameLogic.nextState b lg).1.get p = GameLogic.Cell.Dead →
      (GameLogic.nextState b lg).2.1 p = some GameLogic.CellLifecycle.Died) := by
  rw [GameLogic.nextState_eq]
  refine ⟨?_, ?_, ?_, ?_, ?_⟩
  · intro p hp
    exact GameLogic.foldl_logUpd_isSome b (iterIndices b.width b.height) lg p hp
  · intro p hx hy hsame
    rw [GameLogic.boardNext_get hwf hx hy] at hsame
    show GameLogic.logNext b lg p = lg p
    rw [GameLogic.logNext_mem lg hx hy, GameLogic.ruleLog_none_of_unchanged _ _ hsame]
  · intro p hout
    exact GameLogic.logNext_not_mem lg hout
  · intro p hx hy hdead hlive
    rw [GameLogic.boardNext_get hwf hx hy, hdead] at hlive
    show GameLogic.logNext b lg p = some GameLogic.CellLifecycle.Born
    rw [GameLogic.logNext_mem lg hx hy, hdead, GameLogic.ruleLog_born _ hlive]
  · intro p hx hy hlive hdead
    rw [GameLogic.boardNext_get hwf hx hy, hlive] at hdead
    show GameLogic.logNext b lg p = some GameLogic.CellLifecycle.Died
    rw [GameLogic.logNext_mem lg hx hy, hlive, GameLogic.ruleLog_died _ hdead]

/-- Witness for C10 on a concrete 2×2 grid: the lone live cell dies and
is logged `Died`, while the pre-existing entry at the unchanged `(1, 1)`
remains present. -/
theorem next_state_life_log_insert_only_witness :
    (GameLogic.nextState logWitnessBoard2 logWitnessLog).2.1 (0, 0) =
      some GameLogic.CellLifecycle.Died ∧
    ((GameLogic.nextState logWitnessBoard2 logWitnessLog).2.1 (1, 1)).isSome = true := by
  have h := next_state_life_log_insert_only logWitnessBoard2 logWitnessLog (by decide)
  exact ⟨h.2.2.2.2 (0, 0) (by decide) (by decide) (by decide) (by decide),
    h.1 (1, 1) (by decide)⟩

end GameOfLife
